import Mathlib

/-!
# Verification of the rag-boilerplate services

A shallow embedding, in Lean 4, of the pure computational core of the
`rag-boilerplate` repository, together with theorems settling the frozen
specification claims.

Python strings are modelled as `List Char`.  The embedding covers:

* `app/utils/text_splitter.py` — `simple_sentence_split` (sentence splitting
  by the regex `(?<=[.!?])\s+`, word counting via `str.split()`, chunk
  assembly with overlap seeding);
* `app/services/faiss_service.py` — `_id_to_int` (SHA-256 based stable
  integer key), `create_faiss_index`, the read-modify-write structure of
  `ingest_csv_to_faiss`, and the hit-building loop of `search_faiss_index`;
* `app/services/qdrant_service.py` — `create_qdrant_collection` and the
  hit-building loop of `search_qdrant_collection`;
* `app/services/rag_service.py` — `search_opensearch` / `rag_answer`;
* `app/api/index.py` — the OpenSearch index-creation endpoint;
* `app/embeddings/ollama_generator.py` — `OllamaGenerator.generate`.

External I/O (MongoDB, the FAISS library, Qdrant, OpenSearch, HTTP) is
modelled by explicit state passing: the database is a value threaded through
the operations, and backend answers are parameters of the functions that
consume them.
-/

namespace RagBoilerplate

/-! ## Python string primitives

`pyWs` is the whitespace class used by Python's `str.split()`, `str.strip()`
and the regex class `\s` (restricted to its ASCII part, which is the only
part exercised by this code base): space, tab, newline, carriage return,
vertical tab, form feed. -/

def pyWs (c : Char) : Bool :=
  c == ' ' || c == '\t' || c == '\n' || c == '\r' ||
    c == Char.ofNat 11 || c == Char.ofNat 12

/-- Emit the word accumulated in `acc` (stored reversed), if any. -/
def flushWord (acc : List Char) : List (List Char) :=
  if acc = [] then [] else [acc.reverse]

/-- Worker for `wordsOf`: `acc` is the current partial word, reversed. -/
def wordsAux : List Char → List Char → List (List Char)
  | [], acc => flushWord acc
  | c :: t, acc =>
    if pyWs c then flushWord acc ++ wordsAux t []
    else wordsAux t (c :: acc)

/-- Python `s.split()`: split on runs of whitespace, dropping empty pieces. -/
def wordsOf (s : List Char) : List (List Char) :=
  wordsAux s []

/-- Python `' '.join(pieces)`. -/
def joinSp : List (List Char) → List Char
  | [] => []
  | [x] => x
  | x :: y :: t => x ++ ' ' :: joinSp (y :: t)

/-- Python `l[-n:]` for `n > 0`: the last `min n (length l)` elements. -/
def takeRightN (n : Nat) (l : List α) : List α :=
  l.drop (l.length - n)

/-- Python `s.strip()`: remove leading and trailing whitespace. -/
def pstrip (s : List Char) : List Char :=
  ((s.dropWhile pyWs).reverse.dropWhile pyWs).reverse

/-- The sentence-terminating characters of the regex `(?<=[.!?])\s+`. -/
def isSentEnd (c : Char) : Bool :=
  c == '.' || c == '!' || c == '?'

/-- Worker for `splitSentences`, mirroring Python
`re.split(r'(?<=[.!?])\s+', s)`: a split point is a maximal whitespace run
whose preceding character is one of `.`, `!`, `?`.  `acc` holds the current
piece reversed, so its head is the previously consumed character. -/
def sentSplitAux : Nat → List Char → List Char → List (List Char)
  | _, [], acc => [acc.reverse]
  | 0, s, acc => [acc.reverse ++ s]
  | n + 1, c :: t, acc =>
    if pyWs c && (match acc with | p :: _ => isSentEnd p | [] => false) then
      acc.reverse :: sentSplitAux n (t.dropWhile pyWs) []
    else
      sentSplitAux n t (c :: acc)

/-- Python `re.split(r'(?<=[.!?])\s+', s)`.  The fuel argument of the worker
is the input length; every step consumes at least one character, so the
fuel-exhaustion branch is never reached. -/
def splitSentences (s : List Char) : List (List Char) :=
  sentSplitAux s.length s []

/-! ## `simple_sentence_split` (app/utils/text_splitter.py, lines 5–33) -/

/-- The `for sent in sentences` loop of `simple_sentence_split`, with the
trailing `if current: chunks.append(' '.join(current))`.  State: emitted
`chunks`, the open `current` list of sentences, and `current_len` (the
running word count maintained by the Python code). -/
def sssLoop (mw ov : Nat) :
    List (List Char) → List (List Char) → List (List Char) → Nat →
      List (List Char)
  | [], chunks, current, _ =>
    if current = [] then chunks else chunks ++ [joinSp current]
  | sent :: rest, chunks, current, clen =>
    let w := (wordsOf sent).length
    if clen + w ≤ mw ∨ current = [] then
      sssLoop mw ov rest chunks (current ++ [sent]) (clen + w)
    else
      let chunk := joinSp current
      if 0 < ov then
        let lw := takeRightN ov (wordsOf chunk)
        sssLoop mw ov rest (chunks ++ [chunk]) [joinSp lw, sent]
          (lw.length + w)
      else
        sssLoop mw ov rest (chunks ++ [chunk]) [sent] w

/-- `simple_sentence_split(text, max_words, overlap)` from
`app/utils/text_splitter.py`.  The `not isinstance(text, str)` guard is
outside the model (the argument is a string by type); `if not text` is the
emptiness test on the string. -/
def simple_sentence_split (text : List Char) (mw ov : Nat) :
    List (List Char) :=
  if text = [] then []
  else sssLoop mw ov (splitSentences (pstrip text)) [] [] 0

/-- The sentence-boundary-normalized form of a text: its sentences (after
stripping), rejoined with single spaces. -/
def sentenceNormalized (text : List Char) : List Char :=
  joinSp (splitSentences (pstrip text))

/-- The overlap relation between consecutive chunks: the words of the later
chunk start with the last `ov` words of the earlier chunk (Python
`[-overlap:]` semantics: all of its words when it has fewer than `ov`),
followed by the words of the sentence whose arrival closed the earlier
chunk (some sentence of the split text), followed by the words of any
sentences appended later. -/
def chainP (ov : Nat) (orig : List (List Char)) (c1 c2 : List Char) : Prop :=
  ∃ sent rest, sent ∈ orig ∧
    wordsOf c2 = takeRightN ov (wordsOf c1) ++ (wordsOf sent ++ rest)

/-! ## SHA-256 and `_id_to_int` (app/services/faiss_service.py, lines 24–27)

A byte-level embedding of SHA-256 (FIPS 180-4), with 32-bit words as `Nat`
reduced by `% 2^32`, used to model
`int(hashlib.sha256(sid.encode("utf-8")).hexdigest()[:16], 16) % (2**63 - 1)`.
-/

def u32 (n : Nat) : Nat := n % 4294967296

/-- Right rotation of a 32-bit word. -/
def rotr32 (n x : Nat) : Nat := u32 ((x >>> n) ||| (x <<< (32 - n)))

def bigSigma0 (x : Nat) : Nat := rotr32 2 x ^^^ rotr32 13 x ^^^ rotr32 22 x

def bigSigma1 (x : Nat) : Nat := rotr32 6 x ^^^ rotr32 11 x ^^^ rotr32 25 x

def smallSigma0 (x : Nat) : Nat := rotr32 7 x ^^^ rotr32 18 x ^^^ (x >>> 3)

def smallSigma1 (x : Nat) : Nat := rotr32 17 x ^^^ rotr32 19 x ^^^ (x >>> 10)

def chFn (x y z : Nat) : Nat := (x &&& y) ^^^ ((x ^^^ 4294967295) &&& z)

def majFn (x y z : Nat) : Nat := (x &&& y) ^^^ (x &&& z) ^^^ (y &&& z)

/-- The SHA-256 round constants (FIPS 180-4 §4.2.2, in decimal). -/
def K256 : List Nat :=
  [1116352408, 1899447441, 3049323471, 3921009573,
   961987163, 1508970993, 2453635748, 2870763221,
   3624381080, 310598401, 607225278, 1426881987,
   1925078388, 2162078206, 2614888103, 3248222580,
   3835390401, 4022224774, 264347078, 604807628,
   770255983, 1249150122, 1555081692, 1996064986,
   2554220882, 2821834349, 2952996808, 3210313671,
   3336571891, 3584528711, 113926993, 338241895,
   666307205, 773529912, 1294757372, 1396182291,
   1695183700, 1986661051, 2177026350, 2456956037,
   2730485921, 2820302411, 3259730800, 3345764771,
   3516065817, 3600352804, 4094571909, 275423344,
   430227734, 506948616, 659060556, 883997877,
   958139571, 1322822218, 1537002063, 1747873779,
   1955562222, 2024104815, 2227730452, 2361852424,
   2428436474, 2756734187, 3204031479, 3329325298]

/-- The SHA-256 initial hash value (FIPS 180-4 §5.3.3, in decimal). -/
def H256 : List Nat :=
  [1779033703, 3144134277, 1013904242, 2773480762,
   1359893119, 2600822924, 528734635, 1541459225]

/-- The 8-byte big-endian encoding of `n`. -/
def be64 (n : Nat) : List Nat :=
  [(n >>> 56) % 256, (n >>> 48) % 256, (n >>> 40) % 256, (n >>> 32) % 256,
   (n >>> 24) % 256, (n >>> 16) % 256, (n >>> 8) % 256, n % 256]

/-- SHA-256 padding: append `0x80`, zeros to 56 mod 64, then the bit length. -/
def padMessage (msg : List Nat) : List Nat :=
  let padLen := (64 - ((msg.length + 9) % 64)) % 64
  msg ++ 0x80 :: (List.replicate padLen 0 ++ be64 (msg.length * 8))

/-- Group bytes into big-endian 32-bit words. -/
def toWords : List Nat → List Nat
  | a :: b :: c :: d :: rest => (((a * 256 + b) * 256 + c) * 256 + d) :: toWords rest
  | _ => []

/-- Chunk a byte list into 64-byte blocks (fuel-driven; the fuel `n` bounds
the number of blocks and is instantiated with the list length). -/
def toBlocksAux : Nat → List Nat → List (List Nat)
  | 0, _ => []
  | _ + 1, [] => []
  | n + 1, l => l.take 64 :: toBlocksAux n (l.drop 64)

def toBlocks (l : List Nat) : List (List Nat) := toBlocksAux l.length l

/-- One step of the message-schedule extension: append
`σ₁(w[t-2]) + w[t-7] + σ₀(w[t-15]) + w[t-16] mod 2^32`. -/
def scheduleStep (ws : List Nat) : Nat :=
  let n := ws.length
  u32 (smallSigma1 (ws.getD (n - 2) 0) + ws.getD (n - 7) 0 +
    smallSigma0 (ws.getD (n - 15) 0) + ws.getD (n - 16) 0)

def extendSchedule : Nat → List Nat → List Nat
  | 0, ws => ws
  | n + 1, ws => extendSchedule n (ws ++ [scheduleStep ws])

/-- One SHA-256 compression round on the state `[a,b,c,d,e,f,g,h]`. -/
def compressStep (st : List Nat) (kw : Nat × Nat) : List Nat :=
  match st with
  | [a, b, c, d, e, f, g, h] =>
    let t1 := u32 (h + bigSigma1 e + chFn e f g + kw.1 + kw.2)
    let t2 := u32 (bigSigma0 a + majFn a b c)
    [u32 (t1 + t2), a, b, c, u32 (d + t1), e, f, g]
  | _ => st

/-- Process one 64-byte block: 48 schedule extensions, 64 rounds, then add
the round output to the incoming hash state. -/
def processBlock (hs : List Nat) (block : List Nat) : List Nat :=
  let ws := extendSchedule 48 (toWords block)
  let st := (K256.zip ws).foldl compressStep hs
  (hs.zip st).map (fun p => u32 (p.1 + p.2))

/-- SHA-256 of a byte list, as eight 32-bit words. -/
def sha256Words (msg : List Nat) : List Nat :=
  (toBlocks (padMessage msg)).foldl processBlock H256

def hexDigitChar (n : Nat) : Char :=
  if n < 10 then Char.ofNat (48 + n) else Char.ofNat (87 + n)

/-- The lowercase 8-hex-digit rendering of a 32-bit word. -/
def wordToHex (w : Nat) : List Char :=
  (List.range 8).map (fun i => hexDigitChar ((w >>> (28 - 4 * i)) % 16))

/-- Python `hashlib.sha256(bytes).hexdigest()`: 64 lowercase hex digits. -/
def sha256Hex (msg : List Nat) : List Char :=
  ((sha256Words msg).map wordToHex).flatten

/-- UTF-8 encoding of one character (`str.encode("utf-8")`, per scalar). -/
def utf8EncodeChar (c : Char) : List Nat :=
  let n := c.toNat
  if n < 0x80 then [n]
  else if n < 0x800 then
    [0xC0 ||| (n >>> 6), 0x80 ||| (n &&& 0x3F)]
  else if n < 0x10000 then
    [0xE0 ||| (n >>> 12), 0x80 ||| ((n >>> 6) &&& 0x3F), 0x80 ||| (n &&& 0x3F)]
  else
    [0xF0 ||| (n >>> 18), 0x80 ||| ((n >>> 12) &&& 0x3F),
     0x80 ||| ((n >>> 6) &&& 0x3F), 0x80 ||| (n &&& 0x3F)]

/-- Python `sid.encode("utf-8")`. -/
def utf8Encode (s : String) : List Nat :=
  (s.toList.map utf8EncodeChar).flatten

/-- Python `int(h, 16)` on a lowercase hex string. -/
def hexToNat (l : List Char) : Nat :=
  l.foldl (fun acc c =>
    acc * 16 + (if 97 ≤ c.toNat then c.toNat - 87 else c.toNat - 48)) 0

/-- `_id_to_int` from `app/services/faiss_service.py`:
`int(hashlib.sha256(sid.encode("utf-8")).hexdigest()[:16], 16) % (2**63 - 1)`.
-/
def _id_to_int (sid : String) : Nat :=
  hexToNat ((sha256Hex (utf8Encode sid)).take 16) % (2 ^ 63 - 1)

/-! ## Chunk metadata and search hits -/

/-- The metadata fields stored per chunk and copied into each hit. -/
structure ChunkDoc where
  chunk_id : String
  doc_id : String
  title : String
  category : String
  text_snippet : String
  deriving DecidableEq, Repr

/-- A hit as assembled by the search functions.  `σ` is the backend score
type; scores are carried through unchanged, so they stay abstract. -/
structure Hit (σ : Type) where
  chunk_id : String
  doc_id : String
  title : String
  category : String
  text_snippet : String
  score : σ
  deriving DecidableEq, Repr

/-- The hit dictionary built from a score and a chunk document. -/
def hitOfDoc (s : σ) (c : ChunkDoc) : Hit σ :=
  ⟨c.chunk_id, c.doc_id, c.title, c.category, c.text_snippet, s⟩

/-- Python truthiness of an optional string argument (`if filter_category:`
is false for both `None` and `""`). -/
def pyTruthyStr : Option String → Bool
  | none => false
  | some s => !s.isEmpty

/-! ## `search_faiss_index` (app/services/faiss_service.py, lines 209–305) -/

/-- Line 251: `search_k = top_k * 10 if filter_category else top_k`. -/
def faissSearchK (top_k : Nat) (filter_category : Option String) : Nat :=
  if pyTruthyStr filter_category then top_k * 10 else top_k

/-- Line 252: the count passed to the raw `faiss_index.search` call is
`min(search_k, faiss_index.ntotal)`. -/
def faissRawRequest (top_k : Nat) (filter_category : Option String)
    (ntotal : Nat) : Nat :=
  min (faissSearchK top_k filter_category) ntotal

/-- The hit-building loop of `search_faiss_index` (lines 255–283): skip the
`-1` placeholder ids, look the id up in the `faiss_chunks` collection
(`db`), skip on a missing document, append the hit, and stop as soon as
`top_k` hits are collected.  The category filter of lines 269–271 is
commented out in the source, so `filter_category` is — faithfully to the
source — not consulted by this loop. -/
def faissBuildHits (db : Int → Option ChunkDoc) (top_k : Nat)
    (filter_category : Option String) :
    List (σ × Int) → List (Hit σ) → List (Hit σ)
  | [], hits => hits
  | (score, fid) :: rest, hits =>
    if fid = -1 then faissBuildHits db top_k filter_category rest hits
    else
      match db fid with
      | none => faissBuildHits db top_k filter_category rest hits
      | some c =>
        let hits' := hits ++ [hitOfDoc score c]
        if top_k ≤ hits'.length then hits'
        else faissBuildHits db top_k filter_category rest hits'

/-! ## `search_qdrant_collection` (app/services/qdrant_service.py,
lines 202–286) -/

/-- Line 240: `limit=top_k * 2 if filter_category else top_k`. -/
def qdrantLimit (top_k : Nat) (filter_category : Option String) : Nat :=
  if pyTruthyStr filter_category then top_k * 2 else top_k

/-- The hit-building loop of `search_qdrant_collection` (lines 244–264):
skip a result whose payload category differs from a truthy
`filter_category`, append the hit, stop at `top_k`.  A returned point is
modelled as its score paired with its id and payload fields packaged as a
`ChunkDoc`. -/
def qdrantBuildHits (top_k : Nat) (filter_category : Option String) :
    List (σ × ChunkDoc) → List (Hit σ) → List (Hit σ)
  | [], hits => hits
  | (score, c) :: rest, hits =>
    if pyTruthyStr filter_category && !(filter_category == some c.category)
    then qdrantBuildHits top_k filter_category rest hits
    else
      let hits' := hits ++ [hitOfDoc score c]
      if top_k ≤ hits'.length then hits'
      else qdrantBuildHits top_k filter_category rest hits'

/-! ## Answer assembly and the generation gateway -/

/-- What a search operation returns, together with a flag recording whether
`OllamaGenerator().generate` was invoked on the way. -/
structure SearchOutcome (σ : Type) where
  answer : String
  contexts : List (Hit σ)
  generatorInvoked : Bool
  deriving DecidableEq, Repr

/-- Lines 285–305 of `search_faiss_index`, identical in structure to lines
266–286 of `search_qdrant_collection`: with no hits, the fixed answer is
returned and no generator is constructed or invoked; otherwise the answer is
`OllamaGenerator().generate(query, hits)`, whose value is the parameter
`genAnswer`. -/
def vectorSearchAnswer (hits : List (Hit σ)) (genAnswer : String) :
    SearchOutcome σ :=
  match hits with
  | [] => ⟨"No relevant documents found.", [], false⟩
  | _ => ⟨genAnswer, hits, true⟩

/-- `rag_answer` (app/services/rag_service.py, lines 51–55): the generator
is constructed and invoked unconditionally, with whatever hit list
`search_opensearch` produced. -/
def rag_answer (hits : List (Hit σ)) (genAnswer : String) : SearchOutcome σ :=
  ⟨genAnswer, hits, true⟩

/-- The body of `OllamaGenerator.generate` after the prompt is built
(app/embeddings/ollama_generator.py, lines 33–40).  The transport call, the
status check and the JSON decode all sit inside `try`; `transport` is the
outcome of that block: `.ok r` carries the decoded body's optional
`response` field (read by `data.get("response", "")`), and `.error e` the
message of the exception raised by `requests.post`, `raise_for_status` or
`r.json()`.  The `except Exception` handler turns the error into the
returned string. -/
def generate (transport : Except String (Option String)) : String :=
  match transport with
  | .ok r => r.getD ""
  | .error e => "Generation error: " ++ e

/-! ## Container creation (C8) -/

/-- A document of the `faiss_indices` MongoDB collection (faiss_service.py
lines 71–78): dimension, vector count and the serialized index blob. -/
structure FaissIndexDoc where
  dimension : Nat
  num_vectors : Nat
  index_data : List Nat
  deriving DecidableEq, Repr

/-- `create_faiss_index` (faiss_service.py lines 45–82) acting on the
`faiss_indices` collection, modelled as an association list keyed by
`index_name`.  The existence check (`find_one`) precedes every write, so a
duplicate name raises `ValueError` with the database untouched; otherwise a
fresh document with `num_vectors = 0` and the serialized empty index
(abstracted as `emptyBlob dimension`) is inserted.  The returned pair is
(raised-or-returned value, the collection afterwards). -/
def create_faiss_index (emptyBlob : Nat → List Nat)
    (store : List (String × FaissIndexDoc)) (index_name : String)
    (dimension : Nat) :
    Except String Unit × List (String × FaissIndexDoc) :=
  if (store.lookup index_name).isSome then
    (.error ("FAISS index '" ++ index_name ++ "' already exists"), store)
  else
    (.ok (), store ++ [(index_name, ⟨dimension, 0, emptyBlob dimension⟩)])

/-- A document of the `qdrant_collections` MongoDB collection
(qdrant_service.py lines 58–64). -/
structure QdrantCollectionDoc where
  dimension : Nat
  num_vectors : Nat
  deriving DecidableEq, Repr

/-- `create_qdrant_collection` (qdrant_service.py lines 22–68): the
existence check against the MongoDB metadata collection precedes both the
Qdrant `recreate_collection` call and the metadata insert, so a registered
name raises `ValueError` and neither store is touched.  Otherwise the
server-side collection is (re)created (`recreate_collection` replaces any
unregistered leftover of that name) and the metadata document inserted.
State: (metadata collection, Qdrant server collections by name and
dimension). -/
def create_qdrant_collection (mongo : List (String × QdrantCollectionDoc))
    (qdrant : List (String × Nat)) (collection_name : String)
    (dimension : Nat) :
    Except String Unit ×
      List (String × QdrantCollectionDoc) × List (String × Nat) :=
  if (mongo.lookup collection_name).isSome then
    (.error ("Qdrant collection '" ++ collection_name ++ "' already exists"),
      mongo, qdrant)
  else
    (.ok (),
      mongo ++ [(collection_name, ⟨dimension, 0⟩)],
      (qdrant.filter (fun p => p.1 ≠ collection_name)) ++
        [(collection_name, dimension)])

/-- The `/create` endpoint of app/api/index.py (lines 13–61):
`client.indices.exists` guards `client.indices.create`, so an existing
OpenSearch index name fails with HTTP 400 and the index set is unchanged. -/
def opensearchCreateIndex (indices : List String) (index : String) :
    Except String Unit × List String :=
  if indices.contains index then
    (.error ("Index `" ++ index ++ "` already exists"), indices)
  else
    (.ok (), indices ++ [index])

/-! ## Concurrent ingestion (C3)

`ingest_csv_to_faiss` (faiss_service.py lines 85–204) interacts with the
shared `faiss_indices` document in exactly two atomic MongoDB operations:
`find_one` on the name (line 111), which reads the serialized blob, and
`update_one({"index_name": name}, {"$set": {"index_data": ..., ...}})`
(lines 197–204), which unconditionally overwrites the blob with the
deserialized-index-plus-additions the run computed in memory.  There is no
per-name mutex and the update filter carries no version token.  The blob is
modelled by the list of vector ids it contains; each of two concurrent runs
contributes its own additions `a1`, `a2`. -/

/-- An atomic MongoDB operation of one of the two concurrent ingestion
runs. -/
inductive IngestEv where
  | read1 | write1 | read2 | write2
  deriving DecidableEq, Repr

/-- Execute an interleaving of the two runs' read and write operations.
`store` is the blob of the shared index document; `r1`, `r2` hold what each
run's `find_one` returned.  A write stores what the run read plus its own
additions — the in-memory `faiss_index.add_with_ids` result — regardless of
the current `store`, since `update_one`'s filter matches on the name alone.
A write before the corresponding read (not produced by the real control
flow) is a no-op. -/
def ingestSchedExec (a1 a2 : List Nat) :
    List IngestEv → List Nat → Option (List Nat) → Option (List Nat) →
      List Nat
  | [], store, _, _ => store
  | .read1 :: evs, store, _, r2 => ingestSchedExec a1 a2 evs store (some store) r2
  | .read2 :: evs, store, r1, _ => ingestSchedExec a1 a2 evs store r1 (some store)
  | .write1 :: evs, _store, some r, r2 =>
    ingestSchedExec a1 a2 evs (r ++ a1) (some r) r2
  | .write2 :: evs, _store, r1, some r =>
    ingestSchedExec a1 a2 evs (r ++ a2) r1 (some r)
  | _ :: evs, store, r1, r2 => ingestSchedExec a1 a2 evs store r1 r2

/-! ## Lemmas about words and joins -/

theorem wordsAux_append_ws {c : Char} (hc : pyWs c = true) (ys : List Char) :
    ∀ (xs acc : List Char),
      wordsAux (xs ++ c :: ys) acc = wordsAux xs acc ++ wordsAux ys [] := by
  intro xs
  induction xs with
  | nil => intro acc; simp [wordsAux, hc]
  | cons x t ih =>
    intro acc
    by_cases hx : pyWs x = true
    · simp only [List.cons_append, wordsAux, hx, if_true, List.append_eq]
      rw [ih, List.append_assoc]
    · simp only [List.cons_append, wordsAux, hx, if_false, Bool.false_eq_true,
        List.append_eq]
      exact ih (x :: acc)

/-- `' '.join` then `.split()` concatenates the piecewise splits. -/
theorem wordsOf_joinSp : (l : List (List Char)) →
    wordsOf (joinSp l) = (l.map wordsOf).flatten
  | [] => by simp [joinSp, wordsOf, wordsAux, flushWord]
  | [x] => by simp [joinSp]
  | x :: y :: t => by
    have ih := wordsOf_joinSp (y :: t)
    have h := wordsAux_append_ws (c := ' ') rfl (joinSp (y :: t)) x []
    simp only [joinSp, wordsOf] at *
    rw [h, ih]
    simp [wordsOf]

theorem wordsAux_eq_flush {w : List Char} (h : ∀ c ∈ w, pyWs c = false) :
    ∀ acc : List Char, wordsAux w acc = flushWord (w.reverse ++ acc) := by
  induction w with
  | nil => intro acc; simp [wordsAux]
  | cons c t ih =>
    intro acc
    have hc : pyWs c = false := h c (by simp)
    simp only [wordsAux, hc, Bool.false_eq_true, if_false]
    rw [ih (fun d hd => h d (List.mem_cons_of_mem _ hd)) (c :: acc)]
    simp

/-- A nonempty, whitespace-free string splits into exactly itself. -/
theorem wordsOf_pure {w : List Char} (hw : w ≠ [])
    (h : ∀ c ∈ w, pyWs c = false) : wordsOf w = [w] := by
  unfold wordsOf
  rw [wordsAux_eq_flush h []]
  simp [flushWord, hw]

/-- Every word produced by `wordsAux` is nonempty and whitespace-free. -/
theorem wordsAux_mem_pure :
    ∀ (s acc : List Char), (∀ c ∈ acc, pyWs c = false) →
      ∀ w ∈ wordsAux s acc, w ≠ [] ∧ ∀ c ∈ w, pyWs c = false := by
  intro s
  induction s with
  | nil =>
    intro acc hacc w hw
    simp only [wordsAux, flushWord] at hw
    split at hw
    · simp at hw
    · next hne =>
      simp only [List.mem_singleton] at hw
      subst hw
      exact ⟨by simpa using hne, fun c hc => hacc c (by simpa using hc)⟩
  | cons c t ih =>
    intro acc hacc w hw
    by_cases hc : pyWs c = true
    · simp only [wordsAux, hc, if_true] at hw
      rcases List.mem_append.mp hw with hw | hw
      · simp only [flushWord] at hw
        split at hw
        · simp at hw
        · next hne =>
          simp only [List.mem_singleton] at hw
          subst hw
          exact ⟨by simpa using hne, fun d hd => hacc d (by simpa using hd)⟩
      · exact ih [] (by simp) w hw
    · have hc' : pyWs c = false := by simpa using hc
      simp only [wordsAux, hc', Bool.false_eq_true, if_false] at hw
      refine ih (c :: acc) ?_ w hw
      intro d hd
      rcases List.mem_cons.mp hd with rfl | hd
      · exact hc'
      · exact hacc d hd

theorem wordsOf_mem_pure {s : List Char} :
    ∀ w ∈ wordsOf s, w ≠ [] ∧ ∀ c ∈ w, pyWs c = false :=
  wordsAux_mem_pure s [] (by simp)

/-- Joining a list of nonempty whitespace-free words with spaces and
splitting again recovers the words. -/
theorem wordsOf_joinSp_of_words {l : List (List Char)}
    (h : ∀ w ∈ l, w ≠ [] ∧ ∀ c ∈ w, pyWs c = false) :
    wordsOf (joinSp l) = l := by
  rw [wordsOf_joinSp]
  have hmap : l.map wordsOf = l.map (fun w => [w]) :=
    List.map_congr_left (fun w hw => wordsOf_pure (h w hw).1 (h w hw).2)
  rw [hmap]
  induction l with
  | nil => rfl
  | cons x t ih =>
    simp only [List.map_cons, List.flatten_cons, List.singleton_append,
      List.cons_inj_right]
    exact ih (fun w hw => h w (List.mem_cons_of_mem _ hw))
      (List.map_congr_left
        (fun w hw => wordsOf_pure (h w (List.mem_cons_of_mem _ hw)).1
          (h w (List.mem_cons_of_mem _ hw)).2))

theorem joinSp_append : ∀ (g h : List (List Char)), g ≠ [] → h ≠ [] →
    joinSp (g ++ h) = joinSp g ++ ' ' :: joinSp h
  | [], _, hg, _ => absurd rfl hg
  | [a], h, _, hh => by
    match h with
    | x :: t => simp [joinSp]
  | a :: b :: g, h, _, hh => by
    have ih := joinSp_append (b :: g) h (by simp) hh
    show joinSp (a :: ((b :: g) ++ h)) = joinSp (a :: b :: g) ++ ' ' :: joinSp h
    simp only [List.cons_append, joinSp, List.append_eq]
    rw [show (b :: g) ++ h = b :: (g ++ h) from rfl] at ih
    rw [ih]
    simp

/-- The zero-overlap loop partitions the sentence list into nonempty
consecutive groups and emits one chunk per group. -/
theorem sssLoop0_groups (mw : Nat) :
    ∀ (sents : List (List Char)) (groups : List (List (List Char)))
      (cur : List (List Char)) (clen : Nat),
      (∀ g ∈ groups, g ≠ []) →
      ∃ groups' : List (List (List Char)), (∀ g ∈ groups', g ≠ []) ∧
        groups'.flatten = groups.flatten ++ cur ++ sents ∧
        sssLoop mw 0 sents (groups.map joinSp) cur clen
          = groups'.map joinSp := by
  intro sents
  induction sents with
  | nil =>
    intro groups cur clen hg
    by_cases hcur : cur = []
    · subst hcur
      exact ⟨groups, hg, by simp, by simp [sssLoop]⟩
    · refine ⟨groups ++ [cur], ?_, by simp, by simp [sssLoop, hcur]⟩
      intro g hgm
      rcases List.mem_append.mp hgm with hgm | hgm
      · exact hg g hgm
      · simpa using (List.mem_singleton.mp hgm) ▸ hcur
  | cons sent rest ih =>
    intro groups cur clen hg
    by_cases hcond : clen + (wordsOf sent).length ≤ mw ∨ cur = []
    · obtain ⟨groups', h1, h2, h3⟩ :=
        ih groups (cur ++ [sent]) (clen + (wordsOf sent).length) hg
      refine ⟨groups', h1, ?_, ?_⟩
      · rw [h2]; simp
      · rw [← h3]; simp only [sssLoop]; rw [if_pos hcond]
    · have hcur : cur ≠ [] := fun h => hcond (Or.inr h)
      have hg' : ∀ g ∈ groups ++ [cur], g ≠ [] := by
        intro g hgm
        rcases List.mem_append.mp hgm with hgm | hgm
        · exact hg g hgm
        · simpa using (List.mem_singleton.mp hgm) ▸ hcur
      obtain ⟨groups', h1, h2, h3⟩ :=
        ih (groups ++ [cur]) [sent] (wordsOf sent).length hg'
      refine ⟨groups', h1, ?_, ?_⟩
      · rw [h2]; simp
      · rw [← h3]; simp only [sssLoop]; rw [if_neg hcond]
        simp

/-- Joining a partition group-by-group equals joining the flattened list,
provided every group is nonempty. -/
theorem joinSp_nested : ∀ (groups : List (List (List Char))),
    (∀ g ∈ groups, g ≠ []) → joinSp (groups.map joinSp) = joinSp groups.flatten
  | [], _ => rfl
  | [g], _ => by simp [joinSp]
  | g :: g' :: t, h => by
    have hg : g ≠ [] := h g (by simp)
    have hfl : (g' :: t).flatten ≠ [] := by
      simp only [List.flatten_cons]
      intro hEq
      exact h g' (by simp) (List.append_eq_nil.mp hEq).1
    have ih := joinSp_nested (g' :: t) (fun x hx => h x (List.mem_cons_of_mem _ hx))
    calc joinSp ((g :: g' :: t).map joinSp)
        = joinSp g ++ ' ' :: joinSp ((g' :: t).map joinSp) := by
          simp [joinSp]
      _ = joinSp g ++ ' ' :: joinSp ((g' :: t).flatten) := by rw [ih]
      _ = joinSp (g ++ (g' :: t).flatten) := (joinSp_append g _ hg hfl).symm
      _ = joinSp ((g :: g' :: t).flatten) := by simp

/-! ## Overlap chaining between consecutive chunks -/

theorem wordsOf_joinSp_concat (cur : List (List Char)) (sent : List Char) :
    wordsOf (joinSp (cur ++ [sent]))
      = wordsOf (joinSp cur) ++ wordsOf sent := by
  rw [wordsOf_joinSp, wordsOf_joinSp]
  simp

/-- The overlap seed — the last `ov` words of a chunk, rejoined by spaces —
splits back into exactly those words. -/
theorem seed_words (ov : Nat) (chunk : List Char) :
    wordsOf (joinSp (takeRightN ov (wordsOf chunk)))
      = takeRightN ov (wordsOf chunk) :=
  wordsOf_joinSp_of_words (fun w hw =>
    wordsOf_mem_pure w
      (List.Sublist.mem hw (by unfold takeRightN; exact List.drop_sublist _ _)))

theorem chainP_extend {ov : Nat} {orig : List (List Char)} {a : List Char}
    {cur : List (List Char)} (hP : chainP ov orig a (joinSp cur))
    (sent : List Char) : chainP ov orig a (joinSp (cur ++ [sent])) := by
  obtain ⟨s, r, hs, hw⟩ := hP
  exact ⟨s, r ++ wordsOf sent, hs, by rw [wordsOf_joinSp_concat, hw]; simp⟩

theorem chain'_concat_congr {α : Type} {R : α → α → Prop} {l : List α}
    {b b' : α} (h : List.Chain' R (l ++ [b])) (hbb : ∀ a, R a b → R a b') :
    List.Chain' R (l ++ [b']) := by
  rcases List.chain'_append.mp h with ⟨h1, _, h3⟩
  refine List.chain'_append.mpr ⟨h1, List.chain'_singleton _, ?_⟩
  intro x hx y hy
  simp only [List.head?_cons, Option.mem_some_iff] at hy
  subst hy
  exact hbb x (h3 x hx b (by simp))

/-- Loop invariant for the overlap chain: the chunks emitted so far,
extended with the still-open chunk, are chained by `chainP`. -/
theorem sssLoop_chain (mw ov : Nat) (hov : 0 < ov)
    (orig : List (List Char)) :
    ∀ (sents : List (List Char)), (∀ s ∈ sents, s ∈ orig) →
    ∀ (chunks cur : List (List Char)) (clen : Nat),
      (cur = [] → chunks = []) →
      (cur ≠ [] → List.Chain' (chainP ov orig) (chunks ++ [joinSp cur])) →
      List.Chain' (chainP ov orig) (sssLoop mw ov sents chunks cur clen) := by
  intro sents
  induction sents with
  | nil =>
    intro _ chunks cur clen hemp hchain
    by_cases hcur : cur = []
    · simp only [sssLoop, hcur, if_pos, hemp hcur]
      exact List.chain'_nil
    · simp only [sssLoop, if_neg hcur]
      exact hchain hcur
  | cons sent rest ih =>
    intro hsub chunks cur clen hemp hchain
    have hsub' : ∀ s ∈ rest, s ∈ orig :=
      fun s hs => hsub s (List.mem_cons_of_mem _ hs)
    by_cases hcond : clen + (wordsOf sent).length ≤ mw ∨ cur = []
    · simp only [sssLoop]
      rw [if_pos hcond]
      apply ih hsub' chunks (cur ++ [sent]) _ (fun h => absurd h (by simp))
      intro _
      by_cases hcur : cur = []
      · rw [hemp hcur, hcur]
        simp
      · exact chain'_concat_congr (hchain hcur)
          (fun a hR => chainP_extend hR sent)
    · have hcur : cur ≠ [] := fun h => hcond (Or.inr h)
      simp only [sssLoop]
      rw [if_neg hcond, if_pos hov]
      apply ih hsub'
        (chunks ++ [joinSp cur])
        [joinSp (takeRightN ov (wordsOf (joinSp cur))), sent] _
        (fun h => absurd h (by simp))
      intro _
      have hlink : chainP ov orig (joinSp cur)
          (joinSp [joinSp (takeRightN ov (wordsOf (joinSp cur))), sent]) := by
        refine ⟨sent, [], hsub sent (by simp), ?_⟩
        rw [show joinSp [joinSp (takeRightN ov (wordsOf (joinSp cur))), sent]
              = joinSp ([joinSp (takeRightN ov (wordsOf (joinSp cur)))]
                  ++ [sent]) from rfl,
          wordsOf_joinSp_concat,
          show joinSp [joinSp (takeRightN ov (wordsOf (joinSp cur)))]
              = joinSp (takeRightN ov (wordsOf (joinSp cur))) from rfl,
          seed_words]
        simp
      refine List.chain'_append.mpr
        ⟨hchain hcur, List.chain'_singleton _, ?_⟩
      intro x hx y hy
      rw [List.getLast?_concat] at hx
      simp only [Option.mem_some_iff] at hx
      simp only [List.head?_cons, Option.mem_some_iff] at hy
      subst hx
      subst hy
      exact hlink

/-! ## Bounds and provenance of the hit-building loops -/

theorem faissBuildHits_length_le {σ : Type} (db : Int → Option ChunkDoc)
    (top_k : Nat) (f : Option String) :
    ∀ (results : List (σ × Int)) (acc : List (Hit σ)),
      acc.length < top_k →
      (faissBuildHits db top_k f results acc).length ≤ top_k := by
  intro results
  induction results with
  | nil => intro acc h; simpa [faissBuildHits] using Nat.le_of_lt h
  | cons p rest ih =>
    intro acc h
    obtain ⟨s, fid⟩ := p
    simp only [faissBuildHits]
    by_cases hfid : fid = -1
    · rw [if_pos hfid]; exact ih acc h
    · rw [if_neg hfid]
      rcases hdb : db fid with _ | c
      · simp only [hdb]; exact ih acc h
      · simp only [hdb]
        by_cases hlen : top_k ≤ (acc ++ [hitOfDoc s c]).length
        · rw [if_pos hlen]
          simp only [List.length_append, List.length_singleton]
          omega
        · rw [if_neg hlen]
          apply ih
          simp only [List.length_append, List.length_singleton] at hlen ⊢
          omega

theorem qdrantBuildHits_length_le {σ : Type} (top_k : Nat)
    (f : Option String) :
    ∀ (results : List (σ × ChunkDoc)) (acc : List (Hit σ)),
      acc.length < top_k →
      (qdrantBuildHits top_k f results acc).length ≤ top_k := by
  intro results
  induction results with
  | nil => intro acc h; simpa [qdrantBuildHits] using Nat.le_of_lt h
  | cons p rest ih =>
    intro acc h
    obtain ⟨s, c⟩ := p
    simp only [qdrantBuildHits]
    by_cases hf : (pyTruthyStr f && !(f == some c.category)) = true
    · rw [if_pos hf]; exact ih acc h
    · rw [if_neg hf]
      by_cases hlen : top_k ≤ (acc ++ [hitOfDoc s c]).length
      · rw [if_pos hlen]
        simp only [List.length_append, List.length_singleton]
        omega
      · rw [if_neg hlen]
        apply ih
        simp only [List.length_append, List.length_singleton] at hlen ⊢
        omega

/-- Every hit assembled by the FAISS loop either was already accumulated or
stems from a returned (score, id) pair whose id is not the `-1` placeholder
and whose metadata lookup succeeded. -/
theorem faissBuildHits_mem {σ : Type} (db : Int → Option ChunkDoc)
    (top_k : Nat) (f : Option String) :
    ∀ (results : List (σ × Int)) (acc : List (Hit σ)) (h : Hit σ),
      h ∈ faissBuildHits db top_k f results acc →
      h ∈ acc ∨ ∃ s fid c, (s, fid) ∈ results ∧ fid ≠ -1 ∧
        db fid = some c ∧ h = hitOfDoc s c := by
  intro results
  induction results with
  | nil =>
    intro acc h hh
    exact Or.inl (by simpa [faissBuildHits] using hh)
  | cons p rest ih =>
    intro acc h hh
    obtain ⟨s0, fid0⟩ := p
    simp only [faissBuildHits] at hh
    by_cases hfid : fid0 = -1
    · rw [if_pos hfid] at hh
      rcases ih acc h hh with h1 | ⟨s, fid, c, hm, hne, hdb, he⟩
      · exact Or.inl h1
      · exact Or.inr ⟨s, fid, c, List.mem_cons_of_mem _ hm, hne, hdb, he⟩
    · rw [if_neg hfid] at hh
      rcases hdb0 : db fid0 with _ | c0
      · simp only [hdb0] at hh
        rcases ih acc h hh with h1 | ⟨s, fid, c, hm, hne, hdb, he⟩
        · exact Or.inl h1
        · exact Or.inr ⟨s, fid, c, List.mem_cons_of_mem _ hm, hne, hdb, he⟩
      · simp only [hdb0] at hh
        by_cases hlen : top_k ≤ (acc ++ [hitOfDoc s0 c0]).length
        · rw [if_pos hlen] at hh
          rcases List.mem_append.mp hh with h1 | h1
          · exact Or.inl h1
          · exact Or.inr
              ⟨s0, fid0, c0, by simp, hfid, hdb0, by simpa using h1⟩
        · rw [if_neg hlen] at hh
          rcases ih _ h hh with h1 | ⟨s, fid, c, hm, hne, hdb, he⟩
          · rcases List.mem_append.mp h1 with h2 | h2
            · exact Or.inl h2
            · exact Or.inr
                ⟨s0, fid0, c0, by simp, hfid, hdb0, by simpa using h2⟩
          · exact Or.inr ⟨s, fid, c, List.mem_cons_of_mem _ hm, hne, hdb, he⟩

/-! ## The claims -/

/-- C1: the claim says every hit returned under a category filter has the
requested category.  The FAISS search path violates it: the client-side
category filter (faiss_service.py lines 269–271) is commented out, so a hit
whose metadata category is `"sports"` is returned for a `"finance"` filter.
Evaluated here at the failing input: one backend result with id 7 whose
chunk document has category `"sports"`, searched with
`filter_category="finance"`. -/
theorem faiss_category_filter_not_applied :
    (faissBuildHits
        (fun i => if i = 7 then
          some ⟨"c1", "d1", "t1", "sports", "s1"⟩ else none)
        5 (some "finance") [((1 : Int), (7 : Int))]
        ([] : List (Hit Int))).map Hit.category = ["sports"] ∧
    "sports" ≠ "finance" := by
  exact ⟨rfl, by decide⟩

/-- C2 (counterexample): as stated the claim is false — the OpenSearch
`rag_answer` path (rag_service.py lines 51–55) invokes
`OllamaGenerator().generate` even when the hit list is empty, and returns
the generator's output rather than the fixed string. -/
theorem rag_answer_empty_invokes_generator :
    (rag_answer ([] : List (Hit Int)) "model output").generatorInvoked
        = true ∧
    (rag_answer ([] : List (Hit Int)) "model output").answer
        ≠ "No relevant documents found." := by
  exact ⟨rfl, by decide⟩

/-- C2 (amended): on the FAISS and Qdrant search paths, zero surviving hits
yield the fixed answer `"No relevant documents found."` with empty contexts
and no generator invocation; the OpenSearch `rag_answer` path, by contrast,
invokes the generator unconditionally. -/
theorem empty_hits_fixed_answer_paths (σ : Type) (genAnswer : String)
    (hits : List (Hit σ)) :
    vectorSearchAnswer ([] : List (Hit σ)) genAnswer
        = ⟨"No relevant documents found.", [], false⟩ ∧
    (rag_answer hits genAnswer).generatorInvoked = true :=
  ⟨rfl, rfl⟩

/-- C3: `ingest_csv_to_faiss` mutates the shared index document by an
unconditional read-modify-write (`find_one` at line 111, `update_one` with a
name-only filter at lines 197–204), with no per-container mutex and no
version token.  The interleaving read₁ read₂ write₁ write₂ of two runs each
adding one distinct vector to an empty container therefore ends with a
container holding only run 2's vector: run 1's addition is lost, violating
the claimed serialization guarantee. -/
theorem ingest_lost_update :
    ingestSchedExec [1] [2]
        [IngestEv.read1, IngestEv.read2, IngestEv.write1, IngestEv.write2]
        [] none none = [2] ∧
    1 ∉ ingestSchedExec [1] [2]
        [IngestEv.read1, IngestEv.read2, IngestEv.write1, IngestEv.write2]
        [] none none := by
  exact ⟨rfl, by decide⟩

/-- C4: `_id_to_int` is a pure deterministic function of the chunk id
string — by definition the first 16 hex digits of the SHA-256 digest
interpreted as an integer and reduced modulo `2^63 − 1` — so calling it
twice yields the same integer, and the result always lies in
`[0, 2^63 − 2]`. -/
theorem idToInt_deterministic_in_range (sid : String) :
    _id_to_int sid
        = hexToNat ((sha256Hex (utf8Encode sid)).take 16) % (2 ^ 63 - 1) ∧
    _id_to_int sid = _id_to_int sid ∧
    _id_to_int sid ≤ 2 ^ 63 - 2 := by
  refine ⟨rfl, rfl, ?_⟩
  have h1 : _id_to_int sid < 2 ^ 63 - 1 := Nat.mod_lt _ (by norm_num)
  have h2 : (2 : Nat) ^ 63 - 1 = 9223372036854775807 := by norm_num
  have h3 : (2 : Nat) ^ 63 - 2 = 9223372036854775806 := by norm_num
  omega

/-- C5: for every text and every `max_words ≥ 1`, the chunks produced with
`overlap = 0`, concatenated in order with single spaces, reproduce the
sentence-boundary-normalized form of the input — no word is lost and no
word is duplicated. -/
theorem split_reassembles_to_normalized (text : List Char) (mw : Nat)
    (_hmw : 1 ≤ mw) :
    joinSp (simple_sentence_split text mw 0) = sentenceNormalized text := by
  unfold simple_sentence_split sentenceNormalized
  by_cases ht : text = []
  · rw [if_pos ht]
    subst ht
    rfl
  · rw [if_neg ht]
    obtain ⟨groups', h1, h2, h3⟩ :=
      sssLoop0_groups mw (splitSentences (pstrip text)) [] [] 0 (by simp)
    rw [show List.map joinSp ([] : List (List (List Char))) = [] from rfl]
      at h3
    rw [h3, joinSp_nested groups' h1, h2]
    simp

theorem split_reassembles_to_normalized_witness :
    1 ≤ 3 ∧
    joinSp (simple_sentence_split "Hi there. How are you? Good.".toList 3 0)
      = sentenceNormalized "Hi there. How are you? Good.".toList :=
  ⟨by decide, split_reassembles_to_normalized _ 3 (by decide)⟩

/-- C6 (counterexample): as stated the claim is false — when a chunk holds
fewer than `overlap` words, the first `overlap` words of the next chunk are
not equal to its last `overlap` words.  With `max_words = 5`,
`overlap = 3`, the text `"a. b b b b b b."` splits into the two chunks
`"a."` and `"a. b b b b b b."`; the last 3 words of chunk 0 are `["a."]`
(Python `[-3:]` on one word) while the first 3 words of chunk 1 are
`["a.", "b", "b"]`. -/
theorem overlap_words_equality_counterexample :
    (simple_sentence_split "a. b b b b b b.".toList 5 3).length = 2 ∧
    ¬ ((wordsOf
          ((simple_sentence_split "a. b b b b b b.".toList 5 3).getD 1 [])
        ).take 3
        = takeRightN 3
            (wordsOf
              ((simple_sentence_split "a. b b b b b b.".toList 5 3).getD 0
                []))) := by
  exact ⟨rfl, by decide⟩

/-- C6 (amended): for every input with `overlap > 0`, consecutive chunks
are chained: the words of chunk *i+1* begin with the last
`min(overlap, word count)` words of chunk *i* (Python `[-overlap:]`
slicing), followed by the words of the sentence whose arrival closed chunk
*i*, followed by the words of any later sentences.  (Vacuous when fewer than
two chunks are produced.) -/
theorem overlap_chunks_chain (text : List Char) (mw ov : Nat)
    (hov : 0 < ov) :
    List.Chain' (chainP ov (splitSentences (pstrip text)))
      (simple_sentence_split text mw ov) := by
  unfold simple_sentence_split
  by_cases ht : text = []
  · rw [if_pos ht]; exact List.chain'_nil
  · rw [if_neg ht]
    exact sssLoop_chain mw ov hov _ _ (fun s hs => hs) [] [] 0
      (fun _ => rfl) (fun h => absurd rfl h)

theorem overlap_chunks_chain_witness :
    0 < 2 ∧
    List.Chain'
      (chainP 2 (splitSentences (pstrip
        "First sentence here. Second sentence here. Third one here.".toList)))
      (simple_sentence_split
        "First sentence here. Second sentence here. Third one here.".toList
        5 2) :=
  ⟨by decide, overlap_chunks_chain _ 5 2 (by decide)⟩

/-- C7 (counterexample): as stated the claim is false — the FAISS raw
backend call requests `min(top_k * 10, ntotal)` candidates, so a filtered
search with `k = 5` against an index holding only 3 vectors requests 3
candidates, fewer than `k × multiplier` for every multiplier ≥ 2. -/
theorem overfetch_request_counterexample :
    pyTruthyStr (some "finance") = true ∧
    faissRawRequest 5 (some "finance") 3 = 3 ∧
    ¬ (5 * 2 ≤ faissRawRequest 5 (some "finance") 3) := by
  exact ⟨rfl, rfl, by decide⟩

/-- C7 (amended): with a truthy category filter, FAISS computes
`search_k = top_k·10` and requests `min(top_k·10, ntotal)` candidates from
the raw backend call — hence at least `top_k·10` (in particular 50 for
`k = 5`) whenever the index holds that many vectors — while Qdrant requests
exactly `top_k·2`; both multipliers lie in the 2–10 band, and for
`top_k ≥ 1` both hit-building loops truncate the final list to at most
`top_k`. -/
theorem overfetch_and_truncate {σ : Type}
    (top_k ntotal : Nat) (f : Option String) (db : Int → Option ChunkDoc)
    (results : List (σ × Int)) (qresults : List (σ × ChunkDoc))
    (hf : pyTruthyStr f = true) (hk : 1 ≤ top_k) :
    faissSearchK top_k f = top_k * 10 ∧
    qdrantLimit top_k f = top_k * 2 ∧
    faissRawRequest top_k f ntotal = min (top_k * 10) ntotal ∧
    (top_k * 10 ≤ ntotal → faissRawRequest top_k f ntotal = top_k * 10) ∧
    (faissBuildHits db top_k f results []).length ≤ top_k ∧
    (qdrantBuildHits top_k f qresults []).length ≤ top_k := by
  have hsk : faissSearchK top_k f = top_k * 10 := by simp [faissSearchK, hf]
  refine ⟨hsk, by simp [qdrantLimit, hf], ?_, ?_, ?_, ?_⟩
  · rw [faissRawRequest, hsk]
  · intro hnt
    rw [faissRawRequest, hsk]
    exact Nat.min_eq_left hnt
  · exact faissBuildHits_length_le db top_k f results [] hk
  · exact qdrantBuildHits_length_le top_k f qresults [] hk

theorem overfetch_and_truncate_witness :
    faissSearchK 5 (some "finance") = 5 * 10 ∧
    qdrantLimit 5 (some "finance") = 5 * 2 ∧
    faissRawRequest 5 (some "finance") 100 = min (5 * 10) 100 ∧
    (5 * 10 ≤ 100 → faissRawRequest 5 (some "finance") 100 = 5 * 10) ∧
    (faissBuildHits (fun _ => none) 5 (some "finance")
        ([] : List (Int × Int)) []).length ≤ 5 ∧
    (qdrantBuildHits 5 (some "finance")
        ([] : List (Int × ChunkDoc)) []).length ≤ 5 :=
  overfetch_and_truncate 5 100 (some "finance") (fun _ => none) [] []
    (by decide) (by decide)

/-- C8: creating a container under a name that already exists — per the
existence check each create performs — fails with an already-exists error
and leaves every store exactly as it was: no metadata record, vector count
or blob is mutated, for the FAISS, Qdrant and OpenSearch creates alike. -/
theorem create_existing_name_fails_unchanged
    (emptyBlob : Nat → List Nat)
    (fstore : List (String × FaissIndexDoc))
    (mongo : List (String × QdrantCollectionDoc))
    (qdrant : List (String × Nat)) (indices : List String)
    (name : String) (dim : Nat)
    (hf : (fstore.lookup name).isSome = true)
    (hq : (mongo.lookup name).isSome = true)
    (ho : indices.contains name = true) :
    create_faiss_index emptyBlob fstore name dim
        = (.error ("FAISS index '" ++ name ++ "' already exists"), fstore) ∧
    create_qdrant_collection mongo qdrant name dim
        = (.error ("Qdrant collection '" ++ name ++ "' already exists"),
            mongo, qdrant) ∧
    opensearchCreateIndex indices name
        = (.error ("Index `" ++ name ++ "` already exists"), indices) := by
  refine ⟨?_, ?_, ?_⟩
  · simp [create_faiss_index, hf]
  · simp [create_qdrant_collection, hq]
  · simp only [opensearchCreateIndex, ho, if_true]

theorem create_existing_name_fails_unchanged_witness :
    create_faiss_index (fun _ => []) [("shared", ⟨3, 7, [1]⟩)] "shared" 4
        = (.error ("FAISS index '" ++ "shared" ++ "' already exists"),
            [("shared", ⟨3, 7, [1]⟩)]) ∧
    create_qdrant_collection [("shared", ⟨3, 7⟩)] [("shared", 3)] "shared" 4
        = (.error ("Qdrant collection '" ++ "shared" ++ "' already exists"),
            [("shared", ⟨3, 7⟩)], [("shared", 3)]) ∧
    opensearchCreateIndex ["shared"] "shared"
        = (.error ("Index `" ++ "shared" ++ "` already exists"),
            ["shared"]) :=
  create_existing_name_fails_unchanged (fun _ => []) _ _ _ _ "shared" 4
    (by decide) (by decide) (by decide)

/-- C9: `OllamaGenerator.generate` never propagates a transport or remote
error as an exception: it is total on every transport outcome, an error is
converted into the returned answer string `"Generation error: ..."`, and a
successful response returns the decoded `response` field (defaulting to
`""`). -/
theorem generate_converts_errors_to_answer (e : String) (r : Option String) :
    generate (Except.error e) = "Generation error: " ++ e ∧
    generate (Except.ok r) = r.getD "" :=
  ⟨rfl, rfl⟩

/-- C10: the raw FAISS search request is `min(search_k, ntotal)`, and every
returned hit stems from a returned (score, id) pair whose id is not the
`-1` placeholder and whose chunk-metadata lookup succeeded — i.e. it refers
to a real stored vector. -/
theorem faiss_raw_request_min_and_hits_real {σ : Type}
    (top_k ntotal : Nat) (f : Option String) (db : Int → Option ChunkDoc)
    (results : List (σ × Int)) (h : Hit σ)
    (hmem : h ∈ faissBuildHits db top_k f results []) :
    faissRawRequest top_k f ntotal = min (faissSearchK top_k f) ntotal ∧
    ∃ s fid c, (s, fid) ∈ results ∧ fid ≠ -1 ∧ db fid = some c ∧
      h = hitOfDoc s c := by
  refine ⟨rfl, ?_⟩
  rcases faissBuildHits_mem db top_k f results [] h hmem with h0 | h1
  · exact absurd h0 (List.not_mem_nil h)
  · exact h1

theorem faiss_raw_request_min_and_hits_real_witness :
    faissRawRequest 5 none 3 = min (faissSearchK 5 none) 3 ∧
    ∃ s fid c, (s, fid) ∈ [((1 : Int), (7 : Int))] ∧ fid ≠ -1 ∧
      (fun i => if i = (7 : Int) then
        some (⟨"c1", "d1", "t1", "sports", "s1"⟩ : ChunkDoc) else none) fid
        = some c ∧
      hitOfDoc (1 : Int) (⟨"c1", "d1", "t1", "sports", "s1"⟩ : ChunkDoc)
        = hitOfDoc s c :=
  faiss_raw_request_min_and_hits_real 5 3 none
    (fun i => if i = (7 : Int) then
      some (⟨"c1", "d1", "t1", "sports", "s1"⟩ : ChunkDoc) else none)
    [((1 : Int), (7 : Int))]
    (hitOfDoc (1 : Int) (⟨"c1", "d1", "t1", "sports", "s1"⟩ : ChunkDoc))
    (by decide)

end RagBoilerplate
